import Mathlib

/-!
Verification of the Merkle hash-tree library (`src/main.rs`).

The Rust code is shallowly embedded: a `Hash` is a list of bytes
(natural numbers), the stateful `Digest` trait becomes a record of
pure state-transition functions, and every Rust operation that can
panic (slice-window writes, `usize` subtraction, `Vec::remove`,
`assert!`) is modelled in `Option`, returning `none` exactly where
the Rust program would abort.
-/

/-- A hash value: a byte sequence (`type Hash = Vec<u8>` in the source). -/
abbrev Hash : Type := List Nat

/-- Rust `const LEAF_SIG: u8 = 0u8`. -/
def LEAF_SIG : Nat := 0

/-- Rust `const INTERNAL_SIG: u8 = 1u8`. -/
def INTERNAL_SIG : Nat := 1

/-- The `crypto::digest::Digest` trait: a resettable, stateful digest.
`reset`, `input` transform the state; `result` produces the output bytes
(together with the state after finalisation); `output_bits` is the fixed
digest size in bits. -/
structure DigestOps (σ : Type) where
  reset : σ → σ
  inputBytes : σ → List Nat → σ
  resultOf : σ → List Nat × σ
  output_bits : Nat

/-- Rust `hash_leaf`: reset, absorb `[LEAF_SIG]`, absorb the value's bytes,
finalize.  Returns the digest and the hasher state after the call. -/
def hash_leaf {σ : Type} (D : DigestOps σ) (value : List Nat) (s : σ) :
    Hash × σ :=
  let s1 := D.reset s
  let s2 := D.inputBytes s1 [LEAF_SIG]
  let s3 := D.inputBytes s2 value
  D.resultOf s3

/-- Rust `hash_internal_node`: reset, absorb `[INTERNAL_SIG]`, absorb `left`,
absorb `right` if present and otherwise `left` again, finalize. -/
def hash_internal_node {σ : Type} (D : DigestOps σ) (left : Hash)
    (right : Option Hash) (s : σ) : Hash × σ :=
  let s1 := D.reset s
  let s2 := D.inputBytes s1 [INTERNAL_SIG]
  let s3 := D.inputBytes s2 left
  let s4 := match right with
    | some r => D.inputBytes s3 r
    | none => D.inputBytes s3 left
  D.resultOf s4

/-- The pairing loop of `build_upper_level` (`while i < nodes.len()`):
hash adjacent pairs; a trailing lone element is hashed with `None`. -/
def buildPairs {σ : Type} (D : DigestOps σ) : List Hash → σ → List Hash × σ
  | [], s => ([], s)
  | [x], s =>
    let hs := hash_internal_node D x none s
    ([hs.1], hs.2)
  | x :: y :: rest, s =>
    let hs := hash_internal_node D x (some y) s
    let rs := buildPairs D rest hs.2
    (hs.1 :: rs.1, rs.2)

/-- Rust `build_upper_level`: pair up one level, then, if the produced row has
more than one element and odd length, clone its last element onto the end. -/
def build_upper_level {σ : Type} (D : DigestOps σ) (nodes : List Hash)
    (s : σ) : List Hash × σ :=
  let rs := buildPairs D nodes s
  let row := rs.1
  if 1 < row.length ∧ row.length % 2 ≠ 0 then
    (row ++ [row.getLastD ([] : List Nat)], rs.2)
  else
    (row, rs.2)

/-- The slice write `nodes[start..start+row.len()].clone_from_slice(&row)` as a pure list
operation (callers guard the bounds that make the Rust slice write valid). -/
def writeSlice (nodes : List Hash) (start : Nat) (row : List Hash) :
    List Hash :=
  nodes.take start ++ row ++ nodes.drop (start + row.length)

/-- The `while parents.len() > 1` loop of `build_internal_nodes`.
Each iteration builds the next upper level, decrements the placement
start by its length (`none` on `usize` underflow) and writes it into the
node array (`none` if the slice window would fall outside the array).
`fuel` bounds the iteration count; callers supply enough fuel and the
success lemmas prove it is never exhausted.  On success, returns the
final one-element row, the node array and the hasher state. -/
def buildLoop {σ : Type} (D : DigestOps σ) :
    Nat → List Hash → Nat → List Hash → σ →
    Option (List Hash × List Hash × σ)
  | fuel, parents, start, nodes, s =>
    if parents.length ≤ 1 then
      some (parents, nodes, s)
    else
      match fuel with
      | 0 => none
      | fuel + 1 =>
        let ps := build_upper_level D parents s
        let p := ps.1
        if p.length ≤ start ∧ start ≤ nodes.length then
          buildLoop D fuel p (start - p.length)
            (writeSlice nodes (start - p.length) p) ps.2
        else
          none

/-- Rust `build_internal_nodes`: build the first parent row from the leaf
region `nodes[count_internal_nodes..]`, place it at
`count_internal_nodes - row.len()`, run the placement loop, then force
the final single hash into `nodes[0]` (`nodes[0] = parents.remove(0)`,
which panics — `none` — on an empty row or empty node array). -/
def build_internal_nodes {σ : Type} (D : DigestOps σ) (nodes : List Hash)
    (count_internal_nodes : Nat) (s : σ) : Option (List Hash × σ) :=
  let ps := build_upper_level D (nodes.drop count_internal_nodes) s
  let parents := ps.1
  if parents.length ≤ count_internal_nodes ∧
      count_internal_nodes ≤ nodes.length then
    let start := count_internal_nodes - parents.length
    let nodes1 := writeSlice nodes start parents
    match buildLoop D parents.length parents start nodes1 ps.2 with
    | some (r0 :: _, nodes2, s2) =>
      if nodes2.length ≠ 0 then some (nodes2.set 0 r0, s2) else none
    | some ([], _, _) => none
    | none => none
  else
    none

/-- Modelled from the spec: the repository's `utils::next_power_of_2`
is not under `src/`; the spec (§6) describes it as the smallest power of
two ≥ n, with `nextPowerOfTwo(0)` and `(1)` both yielding 1.  Fuel-based
executable halving; `np2_eq_pow_clog` below identifies it with
`2 ^ Nat.clog 2 n`. -/
def np2Aux : Nat → Nat → Nat
  | 0, _ => 1
  | fuel + 1, n => if n ≤ 1 then 1 else 2 * np2Aux fuel ((n + 1) / 2)

/-- Modelled from the spec: `nextPowerOfTwo(n)`, smallest power of two ≥ n. -/
def next_power_of_2 (n : Nat) : Nat := np2Aux n n

/-- Rust `calculate_internal_nodes_count`. -/
def calculate_internal_nodes_count (count_leaves : Nat) : Nat :=
  next_power_of_2 count_leaves - 1

/-- The `MerkleTree` struct: retained hasher state, flat node array,
internal-node count and leaf count. -/
structure MerkleTree (σ : Type) where
  hasher : σ
  nodes : List Hash
  count_internal_nodes : Nat
  count_leaves : Nat

/-- Rust `_build_from_leaves_with_hasher`: allocate
`internalCount + leafCount` empty slots, copy the leaves into the tail,
run `build_internal_nodes`, assemble the tree. -/
def buildFromLeavesCore {σ : Type} (D : DigestOps σ) (leaves : List Hash)
    (s : σ) : Option (MerkleTree σ) :=
  let count_leaves := leaves.length
  let cin := calculate_internal_nodes_count count_leaves
  let nodes0 : List Hash := List.replicate (cin + count_leaves) ([] : List Nat)
  let nodes1 := writeSlice nodes0 cin leaves
  match build_internal_nodes D nodes1 cin s with
  | some (nodes2, s2) =>
    some { hasher := s2, nodes := nodes2, count_internal_nodes := cin,
           count_leaves := count_leaves }
  | none => none

/-- The sequential leaf-hashing pass of `build_with_hasher`
(`values.iter().map(|v| hash_leaf(v, &mut hasher)).collect()`),
threading the mutable hasher left to right. -/
def hashLeaves {σ : Type} (D : DigestOps σ) :
    List (List Nat) → σ → List Hash × σ
  | [], s => ([], s)
  | v :: vs, s =>
    let hs := hash_leaf D v s
    let rest := hashLeaves D vs hs.2
    (hs.1 :: rest.1, rest.2)

/-- Rust `build_with_hasher`: assert more than one value (`none` on the
assertion failure), hash each value to a leaf, delegate. -/
def build_with_hasher {σ : Type} (D : DigestOps σ) (values : List (List Nat))
    (s : σ) : Option (MerkleTree σ) :=
  if 1 < values.length then
    let hs := hashLeaves D values s
    buildFromLeavesCore D hs.1 hs.2
  else
    none

/-- Rust `build_from_leaves_with_hasher`: assert more than one leaf, delegate. -/
def build_from_leaves_with_hasher {σ : Type} (D : DigestOps σ)
    (leaves : List Hash) (s : σ) : Option (MerkleTree σ) :=
  if 1 < leaves.length then buildFromLeavesCore D leaves s else none

/-- Rust `root_hash`: `&self.nodes[0]`. -/
def MerkleTree.root_hash {σ : Type} (t : MerkleTree σ) : Hash :=
  t.nodes.getD 0 ([] : List Nat)

/-- Rust `leaves`: `&self.nodes[self.count_internal_nodes..]`. -/
def MerkleTree.leaves {σ : Type} (t : MerkleTree σ) : List Hash :=
  t.nodes.drop t.count_internal_nodes

/-- Rust `verify`: assert `position < count_leaves` (`none` otherwise), then
recompute `hash_leaf(value)` with the retained hasher and compare it
byte-for-byte with `nodes[count_internal_nodes + position]` (`none` if
that index falls outside the node array, where Rust indexing would
panic).  Returns the Boolean together with the tree carrying the
mutated hasher state. -/
def MerkleTree.verify {σ : Type} (D : DigestOps σ) (t : MerkleTree σ)
    (position : Nat) (value : List Nat) : Option (Bool × MerkleTree σ) :=
  if position < t.count_leaves then
    if t.count_internal_nodes + position < t.nodes.length then
      let hs := hash_leaf D value t.hasher
      some (decide (t.nodes.getD (t.count_internal_nodes + position)
              ([] : List Nat) = hs.1),
            { t with hasher := hs.2 })
    else
      none
  else
    none

/-!
The default hash primitive: SHA-256 (`crypto::sha2::Sha256` behind
`DefaultHasher`), as a pure function on byte lists.  32-bit words are
naturals reduced modulo `2 ^ 32`.
-/

/-- Truncate to a 32-bit word. -/
def w32 (n : Nat) : Nat := n % 4294967296

/-- The 32-bit right rotation. -/
def rotr32 (k x : Nat) : Nat := w32 ((x >>> k) ||| (x <<< (32 - k)))

/-- SHA-256 choice function. -/
def shaCh (x y z : Nat) : Nat := (x &&& y) ^^^ ((x ^^^ 4294967295) &&& z)

/-- SHA-256 majority function. -/
def shaMaj (x y z : Nat) : Nat := (x &&& y) ^^^ (x &&& z) ^^^ (y &&& z)

/-- SHA-256 Σ₀. -/
def bigSigma0 (x : Nat) : Nat := rotr32 2 x ^^^ rotr32 13 x ^^^ rotr32 22 x

/-- SHA-256 Σ₁. -/
def bigSigma1 (x : Nat) : Nat := rotr32 6 x ^^^ rotr32 11 x ^^^ rotr32 25 x

/-- SHA-256 σ₀. -/
def smallSigma0 (x : Nat) : Nat := rotr32 7 x ^^^ rotr32 18 x ^^^ (x >>> 3)

/-- SHA-256 σ₁. -/
def smallSigma1 (x : Nat) : Nat := rotr32 17 x ^^^ rotr32 19 x ^^^ (x >>> 10)

/-- The 64 SHA-256 round constants. -/
def shaK : List Nat :=
  [1116352408, 1899447441, 3049323471, 3921009573, 961987163,
   1508970993, 2453635748, 2870763221, 3624381080, 310598401,
   607225278, 1426881987, 1925078388, 2162078206, 2614888103,
   3248222580, 3835390401, 4022224774, 264347078, 604807628,
   770255983, 1249150122, 1555081692, 1996064986, 2554220882,
   2821834349, 2952996808, 3210313671, 3336571891, 3584528711,
   113926993, 338241895, 666307205, 773529912, 1294757372,
   1396182291, 1695183700, 1986661051, 2177026350, 2456956037,
   2730485921, 2820302411, 3259730800, 3345764771, 3516065817,
   3600352804, 4094571909, 275423344, 430227734, 506948616,
   659060556, 883997877, 958139571, 1322822218, 1537002063,
   1747873779, 1955562222, 2024104815, 2227730452, 2361852424,
   2428436474, 2756734187, 3204031479, 3329325298]

/-- The SHA-256 initial hash state. -/
def shaInitH : List Nat :=
  [1779033703, 3144134277, 1013904242,
   2773480762, 1359893119, 2600822924,
   528734635, 1541459225]

/-- Big-endian byte expansion of `n` to `k` bytes. -/
def beBytes : Nat → Nat → List Nat
  | 0, _ => []
  | k + 1, n => beBytes k (n / 256) ++ [n % 256]

/-- SHA-256 message padding: `0x80`, zeros to 56 mod 64, 64-bit length. -/
def sha256pad (m : List Nat) : List Nat :=
  m ++ [128] ++ List.replicate ((64 - (m.length + 9) % 64) % 64) 0 ++
    beBytes 8 (8 * m.length)

/-- Group bytes into big-endian 32-bit words. -/
def bytesToWords : List Nat → List Nat
  | a :: b :: c :: d :: rest =>
    (a * 16777216 + b * 65536 + c * 256 + d) :: bytesToWords rest
  | _ => []

/-- One message-schedule extension step. -/
def schedStep (ws : List Nat) : List Nat :=
  ws ++ [w32 (smallSigma1 (ws.getD (ws.length - 2) 0) +
    ws.getD (ws.length - 7) 0 +
    smallSigma0 (ws.getD (ws.length - 15) 0) +
    ws.getD (ws.length - 16) 0)]

/-- Extend the 16-word schedule by `k` further words. -/
def schedExtend : Nat → List Nat → List Nat
  | 0, ws => ws
  | k + 1, ws => schedExtend k (schedStep ws)

/-- One SHA-256 compression round on the eight working variables. -/
def roundStep (st : List Nat) (kw : Nat × Nat) : List Nat :=
  let a := st.getD 0 0
  let b := st.getD 1 0
  let c := st.getD 2 0
  let d := st.getD 3 0
  let e := st.getD 4 0
  let f := st.getD 5 0
  let g := st.getD 6 0
  let h := st.getD 7 0
  let t1 := w32 (h + bigSigma1 e + shaCh e f g + kw.1 + kw.2)
  let t2 := w32 (bigSigma0 a + shaMaj a b c)
  [w32 (t1 + t2), a, b, c, w32 (d + t1), e, f, g]

/-- Compress one 16-word block into the running hash state. -/
def compressBlock (h : List Nat) (block : List Nat) : List Nat :=
  let ws := schedExtend 48 block
  let st := (shaK.zip ws).foldl roundStep h
  (h.zip st).map (fun p => w32 (p.1 + p.2))

/-- Fold the compression over all 16-word blocks. -/
def processBlocks : Nat → List Nat → List Nat → List Nat
  | 0, h, _ => h
  | fuel + 1, h, ws =>
    match ws with
    | [] => h
    | _ => processBlocks fuel (compressBlock h (ws.take 16)) (ws.drop 16)

/-- SHA-256 of a byte list, as 32 output bytes. -/
def sha256 (m : List Nat) : List Nat :=
  let ws := bytesToWords (sha256pad m)
  ((processBlocks ws.length shaInitH ws).map (beBytes 4)).flatten

/-- Rust `DefaultHasher` (SHA-256) as a `DigestOps` whose state is the byte
sequence absorbed since the last reset: `reset` clears it, `input`
appends, `result` hashes it.  This is observationally the streaming
`crypto::sha2::Sha256` under the reset-absorb-finalize discipline. -/
def shaOps : DigestOps (List Nat) :=
  { reset := fun _ => []
    inputBytes := fun s d => s ++ d
    resultOf := fun s => (sha256 s, s)
    output_bits := 256 }

/-- One lower-case hexadecimal digit. -/
def hexDigit (n : Nat) : Char :=
  if n < 10 then Char.ofNat (48 + n) else Char.ofNat (87 + n)

/-- Lower-case hexadecimal encoding of a byte list
(`rustc_serialize::hex::ToHex`). -/
def toHexStr (bs : List Nat) : String :=
  String.mk ((bs.map (fun b => [hexDigit (b / 16), hexDigit (b % 16)])).flatten)

/-- Rust `root_hash_str`: `self.nodes[0].as_slice().to_hex()`. -/
def MerkleTree.root_hash_str {σ : Type} (t : MerkleTree σ) : String :=
  toHexStr t.root_hash

/-- Byte representation of a string value (`AsBytes for &str`); the
claims use ASCII strings, whose UTF-8 bytes are their code points. -/
def strBytes (s : String) : List Nat := s.data.map (fun c => c.toNat)

/-!
Length dynamics of the level-building step.
-/

/-- The length of the row `build_upper_level` produces from a level of
`n` hashes: `⌈n/2⌉` parents, plus one clone when that count is odd and
exceeds one. -/
def padLen (n : Nat) : Nat :=
  if 1 < (n + 1) / 2 ∧ (n + 1) / 2 % 2 ≠ 0 then (n + 1) / 2 + 1
  else (n + 1) / 2

/-- Total length of all rows produced from a row of length `L` by
iterating the level-building step until a single-element row. -/
def rowsTotal (L : Nat) : Nat :=
  if h : 2 ≤ L then padLen L + rowsTotal (padLen L) else 0
termination_by L
decreasing_by unfold padLen; split <;> omega

/-- Modelled from the spec: iterate the level-building step of §4.2
starting from a row until a row of length 1 is produced.  `fuel` bounds
the number of iterations; the theorems show that fuel equal to the leaf
count always suffices. -/
def iterateLevels {σ : Type} (D : DigestOps σ) :
    Nat → List Hash → σ → List Hash × σ
  | 0, row, s => (row, s)
  | fuel + 1, row, s =>
    if row.length ≤ 1 then (row, s)
    else
      let rs := build_upper_level D row s
      iterateLevels D fuel rs.1 rs.2

/-- The node array of `_build_from_leaves_with_hasher` after the leaves
are copied into the tail, before the internal nodes are built. -/
def nodes1Def (leaves : List Hash) : List Hash :=
  writeSlice
    (List.replicate (calculate_internal_nodes_count leaves.length +
      leaves.length) ([] : List Nat))
    (calculate_internal_nodes_count leaves.length) leaves

/-- A trivial digest over the unit state, used to instantiate the
generic theorems on concrete inputs. -/
def unitOps : DigestOps Unit :=
  { reset := fun _ => ()
    inputBytes := fun _ _ => ()
    resultOf := fun _ => ([], ())
    output_bits := 0 }

/-- Modelled from the spec (§4.2): the `i`-th parent hash of one
level-building pass — `hashInternal(level[2i], level[2i+1])` for a full
pair, `hashInternal(level[2i], none)` for a trailing unmatched element. -/
def pairAt {σ : Type} (D : DigestOps σ) (s0 : σ) (ns : List Hash)
    (i : Nat) : Hash :=
  if 2 * i + 1 < ns.length then
    (hash_internal_node D (ns.getD (2 * i) ([] : List Nat))
      (some (ns.getD (2 * i + 1) ([] : List Nat))) s0).1
  else
    (hash_internal_node D (ns.getD (2 * i) ([] : List Nat)) none s0).1

theorem buildPairs_length {σ : Type} (D : DigestOps σ) :
    (ns : List Hash) → (s : σ) →
    (buildPairs D ns s).1.length = (ns.length + 1) / 2
  | [], _ => rfl
  | [_], _ => by simp [buildPairs]
  | x :: y :: rest, s => by
    have ih := buildPairs_length D rest (hash_internal_node D x (some y) s).2
    simp only [buildPairs, List.length_cons]
    rw [ih]
    omega

theorem build_upper_level_length {σ : Type} (D : DigestOps σ)
    (ns : List Hash) (s : σ) :
    (build_upper_level D ns s).1.length = padLen ns.length := by
  have h := buildPairs_length D ns s
  simp only [build_upper_level, padLen, h]
  split
  · simp [h]
  · exact h

theorem padLen_pos (n : Nat) (h : 1 ≤ n) : 1 ≤ padLen n := by
  unfold padLen
  split <;> omega

theorem padLen_lt (n : Nat) (h : 2 ≤ n) : padLen n < n := by
  unfold padLen
  split <;> omega

theorem padLen_even (n : Nat) (h : 1 < padLen n) : padLen n % 2 = 0 := by
  unfold padLen at h ⊢
  split at h <;> rename_i hc
  · rw [if_pos hc]
    omega
  · rw [if_neg hc]
    omega

/-!
`next_power_of_2` is `2 ^ Nat.clog 2 n`, hence the smallest power of two
that is at least `n`.
-/

theorem np2Aux_eq : ∀ fuel n, n ≤ fuel → np2Aux fuel n = 2 ^ Nat.clog 2 n := by
  intro fuel
  induction fuel with
  | zero =>
    intro n hn
    have : n = 0 := by omega
    subst this
    simp [np2Aux, Nat.clog_of_right_le_one]
  | succ f ih =>
    intro n hn
    by_cases h1 : n ≤ 1
    · simp [np2Aux, h1, Nat.clog_of_right_le_one h1]
    · have h2 : 2 ≤ n := by omega
      have hrec := Nat.clog_of_two_le (b := 2) (by norm_num) h2
      have hhalf : (n + 1) / 2 ≤ f := by omega
      simp only [np2Aux, if_neg h1]
      rw [ih _ hhalf]
      have : (n + 2 - 1) / 2 = (n + 1) / 2 := by omega
      rw [hrec, this, pow_succ]
      ring

theorem np2_eq_pow_clog (n : Nat) : next_power_of_2 n = 2 ^ Nat.clog 2 n :=
  np2Aux_eq n n le_rfl

theorem le_np2 (n : Nat) : n ≤ next_power_of_2 n := by
  rw [np2_eq_pow_clog]
  exact Nat.le_pow_clog (by norm_num) n

theorem np2_le_pow (n k : Nat) (h : n ≤ 2 ^ k) : next_power_of_2 n ≤ 2 ^ k := by
  rw [np2_eq_pow_clog]
  exact Nat.pow_le_pow_right (by norm_num)
    ((Nat.le_pow_iff_clog_le (by norm_num)).mp h)

theorem clog_pos_of_two_le (n : Nat) (h : 2 ≤ n) : 1 ≤ Nat.clog 2 n := by
  by_contra hc
  push_neg at hc
  have h0 : Nat.clog 2 n = 0 := by omega
  have := (Nat.le_pow_iff_clog_le (b := 2) (by norm_num)
    (x := n) (y := 0)).mpr (le_of_eq h0)
  simp at this
  omega

/-- Lemma A: for `n ≥ 2`, the first parent row fits in half the
power-of-two budget. -/
theorem two_padLen_le_np2 (n : Nat) (h : 2 ≤ n) :
    2 * padLen n ≤ next_power_of_2 n := by
  rw [np2_eq_pow_clog]
  set k := Nat.clog 2 n with hk
  have hk1 : 1 ≤ k := clog_pos_of_two_le n h
  have hP : 2 ^ k = 2 * 2 ^ (k - 1) := by
    rw [← pow_succ']
    congr 1
    omega
  have hle : n ≤ 2 ^ k := by
    rw [← np2_eq_pow_clog]
    exact le_np2 n
  set m := 2 ^ (k - 1) with hm
  have hrm : (n + 1) / 2 ≤ m := by omega
  by_cases hdvd : 2 ≤ k
  · have h2m : 2 ∣ m := by
      rw [hm]
      exact dvd_pow_self 2 (by omega)
    unfold padLen
    split <;> omega
  · have hk1' : k = 1 := by omega
    have hmm : m = 1 := by
      rw [hm, hk1']
      rfl
    unfold padLen
    split <;> omega

/-!
The total size of all rows above the first, and its power-of-two bound;
this drives the no-underflow argument for the backward placement.
-/



theorem rowsTotal_of_lt (L : Nat) (h : L < 2) : rowsTotal L = 0 := by
  rw [rowsTotal]
  simp [Nat.not_le_of_lt h]

theorem rowsTotal_of_le (L : Nat) (h : 2 ≤ L) :
    rowsTotal L = padLen L + rowsTotal (padLen L) := by
  rw [rowsTotal]
  simp [h]

theorem rowsTotal_bound : ∀ L, 1 ≤ L →
    L + rowsTotal L ≤ 2 * next_power_of_2 L - 1 := by
  intro L
  induction L using Nat.strong_induction_on with
  | _ L ih =>
    intro hL
    by_cases h2 : 2 ≤ L
    · have hpl := padLen_lt L h2
      have hpp := padLen_pos L (by omega)
      have hih := ih (padLen L) hpl hpp
      rw [rowsTotal_of_le L h2]
      have hk1 : 1 ≤ Nat.clog 2 L := clog_pos_of_two_le L h2
      have hP : 2 ^ Nat.clog 2 L = 2 * 2 ^ (Nat.clog 2 L - 1) := by
        rw [← pow_succ']
        congr 1
        omega
      have hA : 2 * padLen L ≤ next_power_of_2 L := two_padLen_le_np2 L h2
      have hhalf : padLen L ≤ 2 ^ (Nat.clog 2 L - 1) := by
        rw [np2_eq_pow_clog] at hA
        omega
      have hnp : next_power_of_2 (padLen L) ≤ 2 ^ (Nat.clog 2 L - 1) :=
        np2_le_pow _ _ hhalf
      have hle : L ≤ next_power_of_2 L := le_np2 L
      rw [np2_eq_pow_clog] at hle ⊢
      omega
    · have h1 : L = 1 := by omega
      subst h1
      rw [rowsTotal_of_lt 1 (by omega)]
      have : next_power_of_2 1 = 1 := rfl
      omega

/-!
Slice-write lemmas.
-/

theorem writeSlice_length (nodes : List Hash) (start : Nat) (row : List Hash)
    (h : start + row.length ≤ nodes.length) :
    (writeSlice nodes start row).length = nodes.length := by
  simp [writeSlice, List.length_take]
  omega

theorem writeSlice_drop (nodes : List Hash) (start : Nat) (row : List Hash)
    (c : Nat) (h1 : start + row.length ≤ c) (h2 : c ≤ nodes.length) :
    (writeSlice nodes start row).drop c = nodes.drop c := by
  have hA : (nodes.take start ++ row).length = start + row.length := by
    simp [List.length_take]
    omega
  have hw : writeSlice nodes start row =
      (nodes.take start ++ row) ++ nodes.drop (start + row.length) := by
    simp [writeSlice]
  rw [hw]
  have hc : c = (nodes.take start ++ row).length + (c - (start + row.length)) := by
    rw [hA]
    omega
  rw [hc, List.drop_append, List.drop_drop]
  congr 1
  omega

theorem getD_set_zero (l : List Hash) (a : Hash) (h : 0 < l.length) :
    (l.set 0 a).getD 0 ([] : List Nat) = a := by
  cases l with
  | nil => simp at h
  | cons x xs => rfl

/-!
The reference level-iteration semantics for the root (spec §4.2–§4.3):
repeatedly apply the level-building step until a row of length 1 remains.
-/



theorem iterateLevels_stable {σ : Type} (D : DigestOps σ) :
    ∀ fuel fuel2 (row : List Hash) (s : σ),
      fuel ≤ fuel2 → (iterateLevels D fuel row s).1.length ≤ 1 →
      iterateLevels D fuel2 row s = iterateLevels D fuel row s := by
  intro fuel
  induction fuel with
  | zero =>
    intro fuel2 row s _ hlen
    simp only [iterateLevels] at hlen
    cases fuel2 with
    | zero => rfl
    | succ f2 => simp [iterateLevels, hlen]
  | succ f ih =>
    intro fuel2 row s hle hlen
    cases fuel2 with
    | zero => omega
    | succ f2 =>
      by_cases h1 : row.length ≤ 1
      · simp [iterateLevels, h1]
      · simp only [iterateLevels, if_neg h1] at hlen ⊢
        exact ih f2 _ _ (by omega) hlen

/-!
Success and characterisation of the backward-placement loop.
-/

theorem buildLoop_spec {σ : Type} (D : DigestOps σ) :
    ∀ fuel (parents : List Hash) (start : Nat) (nodes : List Hash) (s : σ)
      (c : Nat),
      1 ≤ parents.length → rowsTotal parents.length ≤ start →
      parents.length ≤ fuel + 1 → start + parents.length ≤ c →
      c ≤ nodes.length →
      ∃ nodes2 s2 row,
        buildLoop D fuel parents start nodes s = some (row, nodes2, s2) ∧
        nodes2.length = nodes.length ∧ nodes2.drop c = nodes.drop c ∧
        row.length = 1 ∧ iterateLevels D fuel parents s = (row, s2) := by
  intro fuel
  induction fuel with
  | zero =>
    intro parents start nodes s c h1 hrt hf hsc hcn
    have hlen : parents.length = 1 := by omega
    refine ⟨nodes, s, parents, ?_, rfl, rfl, hlen, rfl⟩
    rw [buildLoop]
    simp [hlen]
  | succ f ih =>
    intro parents start nodes s c h1 hrt hf hsc hcn
    by_cases hone : parents.length ≤ 1
    · have hlen : parents.length = 1 := by omega
      refine ⟨nodes, s, parents, ?_, rfl, rfl, hlen, ?_⟩
      · rw [buildLoop]
        simp [hone]
      · simp [iterateLevels, hone]
    · have h2 : 2 ≤ parents.length := by omega
      have hplen : (build_upper_level D parents s).1.length =
          padLen parents.length := build_upper_level_length D parents s
      have hplt : padLen parents.length < parents.length :=
        padLen_lt _ h2
      have hppos : 1 ≤ padLen parents.length := padLen_pos _ (by omega)
      have hrt2 : rowsTotal parents.length =
          padLen parents.length + rowsTotal (padLen parents.length) :=
        rowsTotal_of_le _ h2
      have hg1 : (build_upper_level D parents s).1.length ≤ start := by
        rw [hplen]
        omega
      have hg2 : start ≤ nodes.length := by omega
      have hwl : (writeSlice nodes
          (start - (build_upper_level D parents s).1.length)
          (build_upper_level D parents s).1).length = nodes.length := by
        apply writeSlice_length
        rw [hplen]
        omega
      obtain ⟨nodes2, s2, row, heq, hlen2, hdrop2, hrow, hiter⟩ :=
        ih (build_upper_level D parents s).1
          (start - (build_upper_level D parents s).1.length)
          (writeSlice nodes
            (start - (build_upper_level D parents s).1.length)
            (build_upper_level D parents s).1)
          (build_upper_level D parents s).2 c
          (by rw [hplen]; omega)
          (by rw [hplen]; omega)
          (by rw [hplen]; omega)
          (by rw [hplen]; omega)
          (by rw [hwl]; omega)
      refine ⟨nodes2, s2, row, ?_, ?_, ?_, hrow, ?_⟩
      · rw [buildLoop]
        simp only [if_neg hone]
        rw [if_pos ⟨hg1, hg2⟩]
        exact heq
      · rw [hlen2, hwl]
      · rw [hdrop2]
        apply writeSlice_drop
        · rw [hplen]
          omega
        · omega
      · simp only [iterateLevels, if_neg hone]
        exact hiter

/-!
Characterisation of `build_internal_nodes` and of the tree constructor.
-/

theorem build_internal_nodes_spec {σ : Type} (D : DigestOps σ)
    (leaves : List Hash) (s : σ) (nodes : List Hash)
    (h2 : 2 ≤ leaves.length)
    (hlen : nodes.length =
      calculate_internal_nodes_count leaves.length + leaves.length)
    (hdrop : nodes.drop (calculate_internal_nodes_count leaves.length) =
      leaves) :
    ∃ nodes2 s2,
      build_internal_nodes D nodes
        (calculate_internal_nodes_count leaves.length) s =
        some (nodes2, s2) ∧
      nodes2.length = nodes.length ∧
      nodes2.drop (calculate_internal_nodes_count leaves.length) = leaves ∧
      (iterateLevels D leaves.length leaves s).1.length = 1 ∧
      nodes2.getD 0 ([] : List Nat) =
        (iterateLevels D leaves.length leaves s).1.getD 0 ([] : List Nat) := by
  have hP2 : 2 ≤ next_power_of_2 leaves.length :=
    le_trans h2 (le_np2 leaves.length)
  have hcin : calculate_internal_nodes_count leaves.length =
      next_power_of_2 leaves.length - 1 := rfl
  have hA : 2 * padLen leaves.length ≤ next_power_of_2 leaves.length :=
    two_padLen_le_np2 leaves.length h2
  have hL1pos : 1 ≤ padLen leaves.length := padLen_pos _ (by omega)
  have hL1lt : padLen leaves.length < leaves.length := padLen_lt _ h2
  have hplen : (build_upper_level D leaves s).1.length =
      padLen leaves.length := build_upper_level_length D leaves s
  -- the power-of-two budget bound for the total of the upper rows
  have hk1 : 1 ≤ Nat.clog 2 leaves.length := clog_pos_of_two_le _ h2
  have hPsplit : 2 ^ Nat.clog 2 leaves.length =
      2 * 2 ^ (Nat.clog 2 leaves.length - 1) := by
    rw [← pow_succ']
    congr 1
    omega
  have hhalf : padLen leaves.length ≤
      2 ^ (Nat.clog 2 leaves.length - 1) := by
    have := hA
    rw [np2_eq_pow_clog] at this
    omega
  have hnpL1 : next_power_of_2 (padLen leaves.length) ≤
      2 ^ (Nat.clog 2 leaves.length - 1) := np2_le_pow _ _ hhalf
  have hbound : padLen leaves.length + rowsTotal (padLen leaves.length) ≤
      2 * next_power_of_2 (padLen leaves.length) - 1 :=
    rowsTotal_bound _ hL1pos
  have htot : padLen leaves.length + rowsTotal (padLen leaves.length) ≤
      next_power_of_2 leaves.length - 1 := by
    rw [np2_eq_pow_clog]
    omega
  have hg1 : (build_upper_level D leaves s).1.length ≤
      calculate_internal_nodes_count leaves.length := by
    rw [hplen, hcin]
    omega
  have hg2 : calculate_internal_nodes_count leaves.length ≤ nodes.length := by
    omega
  have hwlen : (writeSlice nodes
      (calculate_internal_nodes_count leaves.length -
        (build_upper_level D leaves s).1.length)
      (build_upper_level D leaves s).1).length = nodes.length := by
    apply writeSlice_length
    rw [hplen, hcin]
    omega
  obtain ⟨nodes2, s2, row, heq, hlen2, hdrop2, hrow, hiter⟩ :=
    buildLoop_spec D (build_upper_level D leaves s).1.length
      (build_upper_level D leaves s).1
      (calculate_internal_nodes_count leaves.length -
        (build_upper_level D leaves s).1.length)
      (writeSlice nodes
        (calculate_internal_nodes_count leaves.length -
          (build_upper_level D leaves s).1.length)
        (build_upper_level D leaves s).1)
      (build_upper_level D leaves s).2
      (calculate_internal_nodes_count leaves.length)
      (by rw [hplen]; omega)
      (by rw [hplen, hcin]; omega)
      (by omega)
      (by rw [hplen, hcin]; omega)
      (by rw [hwlen]; omega)
  obtain ⟨r0, rtail, rfl⟩ : ∃ r0 rtail, row = r0 :: rtail := by
    cases row with
    | nil => simp at hrow
    | cons a t => exact ⟨a, t, rfl⟩
  have hn2pos : nodes2.length ≠ 0 := by
    rw [hlen2, hwlen]
    omega
  have hfinal : build_internal_nodes D nodes
      (calculate_internal_nodes_count leaves.length) s =
      some (nodes2.set 0 r0, s2) := by
    simp only [build_internal_nodes, hdrop]
    rw [if_pos ⟨hg1, hg2⟩, heq]
    simp [hn2pos]
  -- the iteration from the leaves factors through the first level
  obtain ⟨m, hm⟩ : ∃ m, leaves.length = m + 1 := ⟨leaves.length - 1, by omega⟩
  have hnotone : ¬leaves.length ≤ 1 := by omega
  have hiterfull : iterateLevels D leaves.length leaves s =
      (r0 :: rtail, s2) := by
    rw [hm]
    simp only [iterateLevels]
    rw [if_neg (by omega : ¬leaves.length ≤ 1)]
    have hstab := iterateLevels_stable D
      (build_upper_level D leaves s).1.length m
      (build_upper_level D leaves s).1 (build_upper_level D leaves s).2
      (by rw [hplen]; omega)
      (by rw [hiter]; simpa using hrow)
    rw [hstab, hiter]
  refine ⟨nodes2.set 0 r0, s2, hfinal, ?_, ?_, ?_, ?_⟩
  · rw [List.length_set, hlen2, hwlen]
  · rw [List.drop_set, if_pos (by rw [hcin]; omega), hdrop2]
    rw [writeSlice_drop]
    · exact hdrop
    · rw [hplen, hcin]
      omega
    · omega
  · rw [hiterfull]
    exact hrow
  · rw [hiterfull, getD_set_zero _ _ (by omega)]
    rfl



theorem buildCore_spec {σ : Type} (D : DigestOps σ) (leaves : List Hash)
    (s : σ) (h2 : 2 ≤ leaves.length) :
    ∃ t, buildFromLeavesCore D leaves s = some t ∧
      t.count_leaves = leaves.length ∧
      t.count_internal_nodes =
        calculate_internal_nodes_count leaves.length ∧
      t.nodes.length = t.count_internal_nodes + t.count_leaves ∧
      t.nodes.drop t.count_internal_nodes = leaves ∧
      (iterateLevels D leaves.length leaves s).1.length = 1 ∧
      t.nodes.getD 0 ([] : List Nat) =
        (iterateLevels D leaves.length leaves s).1.getD 0 ([] : List Nat) := by
  have hone : nodes1Def leaves =
      List.replicate (calculate_internal_nodes_count leaves.length)
        ([] : List Nat) ++ leaves := by
    simp only [nodes1Def, writeSlice, List.take_replicate, List.drop_replicate]
    rw [Nat.min_eq_left (by omega), Nat.sub_self]
    simp
  have hlen1 : (nodes1Def leaves).length =
      calculate_internal_nodes_count leaves.length + leaves.length := by
    rw [hone]
    simp
  have hdrop1 : (nodes1Def leaves).drop
      (calculate_internal_nodes_count leaves.length) = leaves := by
    rw [hone]
    have h3 := List.drop_left
      (List.replicate (calculate_internal_nodes_count leaves.length)
        ([] : List Nat)) leaves
    simpa using h3
  obtain ⟨nodes2, s2, heq, hlen2, hdrop2, hit1, hroot⟩ :=
    build_internal_nodes_spec D leaves s (nodes1Def leaves) h2 hlen1 hdrop1
  refine ⟨{ hasher := s2, nodes := nodes2,
            count_internal_nodes :=
              calculate_internal_nodes_count leaves.length,
            count_leaves := leaves.length }, ?_, rfl, rfl, ?_, ?_, hit1, ?_⟩
  · simp only [buildFromLeavesCore]
    rw [show writeSlice
        (List.replicate (calculate_internal_nodes_count leaves.length +
          leaves.length) ([] : List Nat))
        (calculate_internal_nodes_count leaves.length) leaves =
        nodes1Def leaves from rfl]
    rw [heq]
  · simp only
    rw [hlen2, hlen1]
  · exact hdrop2
  · exact hroot

theorem hashLeaves_length {σ : Type} (D : DigestOps σ) :
    (vs : List (List Nat)) → (s : σ) →
    (hashLeaves D vs s).1.length = vs.length
  | [], _ => rfl
  | v :: vs, s => by
    simp only [hashLeaves, List.length_cons]
    rw [hashLeaves_length D vs (hash_leaf D v s).2]



/-- C1: for every leaf-hash sequence of length `n > 1`, construction
succeeds and the hash at index 0 — the value `root_hash` returns —
equals the single hash obtained by iterating the level-building step of
§4.2 on the leaf hashes until a row of length 1 is produced; the
iteration does reach a row of length 1, and the final hash sits at
index 0 regardless of where the backward-placement arithmetic would
have put it. -/
theorem c1_root_hash_is_iterated_level_fold {σ : Type} (D : DigestOps σ)
    (leaves : List Hash) (s : σ) (h2 : 1 < leaves.length) :
    ∃ t, build_from_leaves_with_hasher D leaves s = some t ∧
      (iterateLevels D leaves.length leaves s).1.length = 1 ∧
      t.root_hash =
        (iterateLevels D leaves.length leaves s).1.getD 0 ([] : List Nat) ∧
      t.root_hash = t.nodes.getD 0 ([] : List Nat) := by
  obtain ⟨t, heq, _, _, _, _, hit1, hroot⟩ := buildCore_spec D leaves s h2
  refine ⟨t, ?_, hit1, hroot, rfl⟩
  simp only [build_from_leaves_with_hasher, if_pos h2]
  exact heq

/-- Witness for C1 at a concrete two-leaf input over the unit digest. -/
theorem c1_root_hash_is_iterated_level_fold_witness :
    (1 : Nat) < ([[0], [1]] : List Hash).length ∧
    (∃ t, build_from_leaves_with_hasher unitOps [[0], [1]] () = some t ∧
      (iterateLevels unitOps ([[0], [1]] : List Hash).length [[0], [1]]
        ()).1.length = 1 ∧
      t.root_hash = (iterateLevels unitOps ([[0], [1]] : List Hash).length
        [[0], [1]] ()).1.getD 0 ([] : List Nat) ∧
      t.root_hash = t.nodes.getD 0 ([] : List Nat)) :=
  ⟨by decide, c1_root_hash_is_iterated_level_fold unitOps [[0], [1]] ()
    (by decide)⟩

/-- C2: for every input of length `n > 1`, both construction entry
points succeed — every backward slice-window write stays in bounds with
no index underflow, so no operation fails — and the resulting tree has
`leaves().length = n`. -/
theorem c2_construction_total_and_leaf_count {σ : Type} (D : DigestOps σ)
    (values : List (List Nat)) (ls : List Hash) (s sl : σ)
    (hv : 1 < values.length) (hl : 1 < ls.length) :
    (∃ t, build_with_hasher D values s = some t ∧
      t.leaves.length = values.length) ∧
    (∃ t, build_from_leaves_with_hasher D ls sl = some t ∧
      t.leaves.length = ls.length) := by
  constructor
  · have hlen : 2 ≤ (hashLeaves D values s).1.length := by
      rw [hashLeaves_length]
      omega
    obtain ⟨t, heq, _, _, _, hdropl, _, _⟩ :=
      buildCore_spec D (hashLeaves D values s).1 (hashLeaves D values s).2
        hlen
    refine ⟨t, ?_, ?_⟩
    · simp only [build_with_hasher, if_pos hv]
      exact heq
    · rw [MerkleTree.leaves, hdropl, hashLeaves_length]
  · obtain ⟨t, heq, _, _, _, hdropl, _, _⟩ := buildCore_spec D ls sl hl
    refine ⟨t, ?_, ?_⟩
    · simp only [build_from_leaves_with_hasher, if_pos hl]
      exact heq
    · rw [MerkleTree.leaves, hdropl]

/-- Witness for C2 at concrete inputs over the unit digest. -/
theorem c2_construction_total_and_leaf_count_witness :
    ((1 : Nat) < ([[2], [3], [4]] : List (List Nat)).length ∧
      (1 : Nat) < ([[5], [6]] : List Hash).length) ∧
    ((∃ t, build_with_hasher unitOps [[2], [3], [4]] () = some t ∧
      t.leaves.length = ([[2], [3], [4]] : List (List Nat)).length) ∧
    (∃ t, build_from_leaves_with_hasher unitOps [[5], [6]] () = some t ∧
      t.leaves.length = ([[5], [6]] : List Hash).length)) :=
  ⟨⟨by decide, by decide⟩,
    c2_construction_total_and_leaf_count unitOps [[2], [3], [4]] [[5], [6]]
      () () (by decide) (by decide)⟩

/-- C6: both construction entry points fail exactly when the input has
length ≤ 1; with two or more inputs no failure occurs and a tree is
produced. -/
theorem c6_fails_iff_insufficient_leaves {σ : Type} (D : DigestOps σ)
    (values : List (List Nat)) (ls : List Hash) (s sl : σ) :
    (build_with_hasher D values s = none ↔ values.length ≤ 1) ∧
    (build_from_leaves_with_hasher D ls sl = none ↔ ls.length ≤ 1) := by
  constructor
  · constructor
    · intro hnone
      by_contra hc
      push_neg at hc
      have hlen : 2 ≤ (hashLeaves D values s).1.length := by
        rw [hashLeaves_length]
        omega
      obtain ⟨t, heq, _⟩ :=
        buildCore_spec D (hashLeaves D values s).1 (hashLeaves D values s).2
          hlen
      rw [build_with_hasher, if_pos hc] at hnone
      rw [heq] at hnone
      exact Option.noConfusion hnone
    · intro hle
      rw [build_with_hasher, if_neg (by omega)]
  · constructor
    · intro hnone
      by_contra hc
      push_neg at hc
      obtain ⟨t, heq, _⟩ := buildCore_spec D ls sl hc
      rw [build_from_leaves_with_hasher, if_pos hc] at hnone
      rw [heq] at hnone
      exact Option.noConfusion hnone
    · intro hle
      rw [build_from_leaves_with_hasher, if_neg (by omega)]

/-- C7: a tree built from `n > 1` leaf hashes has node-array length
`internalCount + leafCount` with `internalCount = nextPowerOfTwo(n) - 1`;
the tail region `[internalCount, internalCount + leafCount)` is a copy
of the input leaves in the caller's original order, and `leaves()`
returns exactly that tail region. -/
theorem c7_node_array_layout {σ : Type} (D : DigestOps σ)
    (leaves : List Hash) (s : σ) (h2 : 1 < leaves.length) :
    ∃ t, build_from_leaves_with_hasher D leaves s = some t ∧
      t.count_leaves = leaves.length ∧
      t.count_internal_nodes = next_power_of_2 leaves.length - 1 ∧
      t.nodes.length = t.count_internal_nodes + t.count_leaves ∧
      t.nodes.drop t.count_internal_nodes = leaves ∧
      t.leaves = t.nodes.drop t.count_internal_nodes := by
  obtain ⟨t, heq, hcl, hcin, hlen, hdropl, _, _⟩ :=
    buildCore_spec D leaves s h2
  refine ⟨t, ?_, hcl, hcin, hlen, hdropl, rfl⟩
  simp only [build_from_leaves_with_hasher, if_pos h2]
  exact heq

/-- Witness for C7 at a concrete three-leaf input over the unit digest. -/
theorem c7_node_array_layout_witness :
    (1 : Nat) < ([[7], [8], [9]] : List Hash).length ∧
    (∃ t, build_from_leaves_with_hasher unitOps [[7], [8], [9]] () =
        some t ∧
      t.count_leaves = ([[7], [8], [9]] : List Hash).length ∧
      t.count_internal_nodes =
        next_power_of_2 ([[7], [8], [9]] : List Hash).length - 1 ∧
      t.nodes.length = t.count_internal_nodes + t.count_leaves ∧
      t.nodes.drop t.count_internal_nodes = [[7], [8], [9]] ∧
      t.leaves = t.nodes.drop t.count_internal_nodes) :=
  ⟨by decide, c7_node_array_layout unitOps [[7], [8], [9]] () (by decide)⟩

/-!
For a digest whose `reset` is constant — the default SHA-256 hasher and
any practical primitive — hash values do not depend on the hasher state
carried in, since every hashing operation begins with a reset.
-/

theorem hash_internal_fst_const {σ : Type} (D : DigestOps σ)
    (hpure : ∀ a b : σ, D.reset a = D.reset b) (x : Hash) (y : Option Hash)
    (s t : σ) :
    (hash_internal_node D x y s).1 = (hash_internal_node D x y t).1 := by
  simp only [hash_internal_node]
  rw [hpure s t]

theorem buildPairs_fst_const {σ : Type} (D : DigestOps σ)
    (hpure : ∀ a b : σ, D.reset a = D.reset b) :
    (ns : List Hash) → (s t : σ) →
    (buildPairs D ns s).1 = (buildPairs D ns t).1
  | [], _, _ => rfl
  | [x], s, t => by
    simp only [buildPairs]
    rw [hash_internal_fst_const D hpure x none s t]
  | x :: y :: rest, s, t => by
    simp only [buildPairs]
    rw [hash_internal_fst_const D hpure x (some y) s t,
      buildPairs_fst_const D hpure rest
        (hash_internal_node D x (some y) s).2
        (hash_internal_node D x (some y) t).2]

theorem build_upper_level_fst_const {σ : Type} (D : DigestOps σ)
    (hpure : ∀ a b : σ, D.reset a = D.reset b) (ns : List Hash) (s t : σ) :
    (build_upper_level D ns s).1 = (build_upper_level D ns t).1 := by
  simp only [build_upper_level, apply_ite Prod.fst]
  rw [buildPairs_fst_const D hpure ns s t]

theorem iterateLevels_fst_const {σ : Type} (D : DigestOps σ)
    (hpure : ∀ a b : σ, D.reset a = D.reset b) :
    ∀ fuel (ns : List Hash) (s t : σ),
      (iterateLevels D fuel ns s).1 = (iterateLevels D fuel ns t).1 := by
  intro fuel
  induction fuel with
  | zero => intro ns s t; rfl
  | succ f ih =>
    intro ns s t
    by_cases h1 : ns.length ≤ 1
    · simp [iterateLevels, h1]
    · simp only [iterateLevels, if_neg h1]
      rw [build_upper_level_fst_const D hpure ns s t]
      exact ih _ _ _

/-- C8: idempotent round-trip — rebuilding from a tree's own exposed
leaf region, with the same (constant-reset) hash primitive started in
any state, reproduces the same root hex string and the same leaf
sequence. -/
theorem c8_idempotent_round_trip {σ : Type} (D : DigestOps σ)
    (hpure : ∀ a b : σ, D.reset a = D.reset b) (leaves : List Hash)
    (s s2 : σ) (t : MerkleTree σ) (h2 : 1 < leaves.length)
    (ht : build_from_leaves_with_hasher D leaves s = some t) :
    ∃ t2, build_from_leaves_with_hasher D t.leaves s2 = some t2 ∧
      t2.root_hash_str = t.root_hash_str ∧ t2.leaves = t.leaves := by
  obtain ⟨t', heq', _, _, _, hdrop', hit1', hroot'⟩ :=
    buildCore_spec D leaves s h2
  have htt : t = t' := by
    rw [build_from_leaves_with_hasher, if_pos h2, heq'] at ht
    exact (Option.some.injEq ..).mp ht.symm
  subst htt
  have hleaves : t.leaves = leaves := hdrop'
  obtain ⟨t2, heq2, _, _, _, hdrop2, hit2, hroot2⟩ :=
    buildCore_spec D leaves s2 h2
  refine ⟨t2, ?_, ?_, ?_⟩
  · rw [hleaves, build_from_leaves_with_hasher, if_pos h2]
    exact heq2
  · have hsame : (iterateLevels D leaves.length leaves s2).1 =
        (iterateLevels D leaves.length leaves s).1 :=
      iterateLevels_fst_const D hpure leaves.length leaves s2 s
    rw [MerkleTree.root_hash_str, MerkleTree.root_hash_str,
      MerkleTree.root_hash, MerkleTree.root_hash, hroot2, hroot', hsame]
  · rw [MerkleTree.leaves, hdrop2, hleaves]

/-- Witness for C8 on a concrete two-leaf tree over the unit digest. -/
theorem c8_idempotent_round_trip_witness :
    (∀ a b : Unit, unitOps.reset a = unitOps.reset b) ∧
    (1 : Nat) < ([[3], [4]] : List Hash).length ∧
    build_from_leaves_with_hasher unitOps [[3], [4]] () =
      some ⟨(), [[], [3], [4]], 1, 2⟩ ∧
    (∃ t2, build_from_leaves_with_hasher unitOps
        (MerkleTree.leaves ⟨(), [[], [3], [4]], 1, 2⟩) () = some t2 ∧
      t2.root_hash_str = MerkleTree.root_hash_str ⟨(), [[], [3], [4]], 1, 2⟩ ∧
      t2.leaves = MerkleTree.leaves ⟨(), [[], [3], [4]], 1, 2⟩) :=
  ⟨fun _ _ => rfl, by decide, by rfl,
    c8_idempotent_round_trip unitOps (fun _ _ => rfl) [[3], [4]] () ()
      ⟨(), [[], [3], [4]], 1, 2⟩ (by decide) (by rfl)⟩



theorem buildPairs_getD {σ : Type} (D : DigestOps σ)
    (hpure : ∀ a b : σ, D.reset a = D.reset b) (s0 : σ) :
    (ns : List Hash) → (s : σ) → (i : Nat) → i < (ns.length + 1) / 2 →
    (buildPairs D ns s).1.getD i ([] : List Nat) = pairAt D s0 ns i
  | [], _, i, h => by simp at h
  | [x], s, 0, _ => by
    simp only [buildPairs, pairAt]
    rw [if_neg (by simp)]
    simp only [List.getD_cons_zero]
    exact hash_internal_fst_const D hpure x none s s0
  | [x], _, i + 1, h => by simp at h
  | x :: y :: rest, s, 0, _ => by
    simp only [buildPairs, pairAt]
    rw [if_pos (by simp)]
    simp only [List.getD_cons_zero]
    exact hash_internal_fst_const D hpure x (some y) s s0
  | x :: y :: rest, s, i + 1, h => by
    have ih := buildPairs_getD D hpure s0 rest
      (hash_internal_node D x (some y) s).2 i
      (by simp only [List.length_cons] at h; omega)
    simp only [buildPairs, List.getD_cons_succ]
    rw [ih]
    simp only [pairAt]
    have e1 : (x :: y :: rest).getD (2 * (i + 1)) ([] : List Nat) =
        rest.getD (2 * i) ([] : List Nat) := by
      have e : 2 * (i + 1) = 2 * i + 1 + 1 := by ring
      rw [e, List.getD_cons_succ, List.getD_cons_succ]
    have e2 : (x :: y :: rest).getD (2 * (i + 1) + 1) ([] : List Nat) =
        rest.getD (2 * i + 1) ([] : List Nat) := by
      have e : 2 * (i + 1) + 1 = 2 * i + 1 + 1 + 1 := by ring
      rw [e, List.getD_cons_succ, List.getD_cons_succ]
    rw [e1, e2]
    by_cases hc : 2 * i + 1 < rest.length
    · rw [if_pos hc, if_pos (by simp only [List.length_cons]; omega)]
    · rw [if_neg hc, if_neg (by simp only [List.length_cons]; omega)]

theorem getLastD_eq_getD (l : List Hash) (d : List Nat) :
    l.getLastD d = l.getD (l.length - 1) d := by
  rw [List.getLastD_eq_getLast?, List.getLast?_eq_getElem?,
    List.getD_eq_getElem?_getD]

/-- C3: one level-building pass over `N` hashes scans left to right in
steps of two — parent `i` is `hashInternal(level[2i], level[2i+1])` for
a full pair and `hashInternal(level[2i], none)` for the trailing
unmatched element when `N` is odd — yielding `⌈N/2⌉` parent hashes;
then, if that row has more than one element and odd length, the last
element is duplicated by cloning (the appended entry is byte-identical
to the previous last entry), so the returned row has even length
whenever its length exceeds 1. -/
theorem c3_level_step_pairs_and_padding {σ : Type} (D : DigestOps σ)
    (s0 : σ) (hpure : ∀ a b : σ, D.reset a = D.reset b) (ns : List Hash)
    (s : σ) :
    (∀ i, i < (ns.length + 1) / 2 →
      (build_upper_level D ns s).1.getD i ([] : List Nat) =
        pairAt D s0 ns i) ∧
    (build_upper_level D ns s).1.length = padLen ns.length ∧
    (1 < (ns.length + 1) / 2 ∧ (ns.length + 1) / 2 % 2 ≠ 0 →
      (build_upper_level D ns s).1.getD ((ns.length + 1) / 2)
          ([] : List Nat) =
        (build_upper_level D ns s).1.getD ((ns.length + 1) / 2 - 1)
          ([] : List Nat)) ∧
    (1 < (build_upper_level D ns s).1.length →
      (build_upper_level D ns s).1.length % 2 = 0) := by
  have hplen := buildPairs_length D ns s
  refine ⟨?_, build_upper_level_length D ns s, ?_, ?_⟩
  case refine_3 =>
    intro h
    rw [build_upper_level_length D ns s]
    exact padLen_even ns.length
      (by rw [← build_upper_level_length D ns s]; exact h)
  · intro i hi
    have hp := buildPairs_getD D hpure s0 ns s i hi
    simp only [build_upper_level]
    split
    · rw [List.getD_append _ _ _ _ (by omega), hp]
    · exact hp
  · intro hodd
    have hodd' : 1 < (buildPairs D ns s).1.length ∧
        (buildPairs D ns s).1.length % 2 ≠ 0 := by
      rw [hplen]
      exact hodd
    simp only [build_upper_level]
    rw [if_pos hodd']
    have hlenA : ((buildPairs D ns s).1 ++
        [(buildPairs D ns s).1.getLastD ([] : List Nat)]).getD
          ((ns.length + 1) / 2) ([] : List Nat) =
        (buildPairs D ns s).1.getLastD ([] : List Nat) := by
      rw [List.getD_eq_getElem?_getD, List.getElem?_append]
      rw [if_neg (by omega)]
      rw [hplen]
      simp
    rw [hlenA, List.getD_append _ _ _ _ (by omega),
      getLastD_eq_getD, hplen]

/-- Witness for C3 at a concrete three-hash level over the unit digest. -/
theorem c3_level_step_pairs_and_padding_witness :
    (∀ a b : Unit, unitOps.reset a = unitOps.reset b) ∧
    ((∀ i, i < (([[1], [2], [3]] : List Hash).length + 1) / 2 →
      (build_upper_level unitOps [[1], [2], [3]] ()).1.getD i
          ([] : List Nat) =
        pairAt unitOps () [[1], [2], [3]] i) ∧
    (build_upper_level unitOps [[1], [2], [3]] ()).1.length =
      padLen ([[1], [2], [3]] : List Hash).length ∧
    (1 < (([[1], [2], [3]] : List Hash).length + 1) / 2 ∧
        (([[1], [2], [3]] : List Hash).length + 1) / 2 % 2 ≠ 0 →
      (build_upper_level unitOps [[1], [2], [3]] ()).1.getD
          ((([[1], [2], [3]] : List Hash).length + 1) / 2) ([] : List Nat) =
        (build_upper_level unitOps [[1], [2], [3]] ()).1.getD
          ((([[1], [2], [3]] : List Hash).length + 1) / 2 - 1)
          ([] : List Nat)) ∧
    (1 < (build_upper_level unitOps [[1], [2], [3]] ()).1.length →
      (build_upper_level unitOps [[1], [2], [3]] ()).1.length % 2 = 0)) :=
  ⟨fun _ _ => rfl,
    c3_level_step_pairs_and_padding unitOps () (fun _ _ => rfl)
      [[1], [2], [3]] ()⟩

/-!
Output-length lemmas for the SHA-256 model.
-/

theorem beBytes_length : ∀ k n, (beBytes k n).length = k
  | 0, _ => rfl
  | k + 1, n => by
    simp [beBytes, beBytes_length k (n / 256)]

theorem foldl_roundStep_length :
    ∀ (l : List (Nat × Nat)) (st : List Nat),
      st.length = 8 → (l.foldl roundStep st).length = 8
  | [], _, h => h
  | kw :: l, st, _ => foldl_roundStep_length l (roundStep st kw) rfl

theorem compressBlock_length (h : List Nat) (block : List Nat)
    (hh : h.length = 8) : (compressBlock h block).length = 8 := by
  have hs := foldl_roundStep_length (shaK.zip (schedExtend 48 block)) h hh
  simp [compressBlock, List.length_zip, hh, hs]

theorem processBlocks_length :
    ∀ fuel (ws : List Nat) (h : List Nat), h.length = 8 →
      (processBlocks fuel h ws).length = 8
  | 0, _, _, hh => hh
  | fuel + 1, ws, h, hh => by
    cases ws with
    | nil => exact hh
    | cons a l =>
      simp only [processBlocks]
      exact processBlocks_length fuel _ _ (compressBlock_length h _ hh)

theorem flatten_map_beBytes_length :
    ∀ (l : List Nat), ((l.map (beBytes 4)).flatten).length = 4 * l.length
  | [] => rfl
  | a :: l => by
    simp [beBytes_length, flatten_map_beBytes_length l]
    ring

theorem sha256_length (m : List Nat) : (sha256 m).length = 32 := by
  simp only [sha256]
  rw [flatten_map_beBytes_length,
    processBlocks_length _ _ shaInitH (by rfl)]

/-- C4: leaf and internal hashing are domain-separated exactly as
specified — `hashLeaf` is reset, tag byte `LEAF_TAG = 0`, value bytes,
finalize; `hashInternal` is reset, tag byte `INTERNAL_TAG = 1`, left
bytes, then right bytes if present and otherwise left bytes again,
finalize — so `hashInternal(x, none) = hashInternal(x, some x)` for
every hash `x`; on the default SHA-256 primitive these are
`sha256(0 ‖ value)` and `sha256(1 ‖ left ‖ right)`, finalized into a
buffer of the primitive's output size (32 bytes). -/
theorem c4_domain_separated_hashing {σ : Type} (D : DigestOps σ)
    (v x y : List Nat) (s : σ) (sl : List Nat) :
    hash_leaf D v s =
      D.resultOf (D.inputBytes (D.inputBytes (D.reset s) [LEAF_SIG]) v) ∧
    hash_internal_node D x (some y) s =
      D.resultOf (D.inputBytes (D.inputBytes
        (D.inputBytes (D.reset s) [INTERNAL_SIG]) x) y) ∧
    hash_internal_node D x none s =
      D.resultOf (D.inputBytes (D.inputBytes
        (D.inputBytes (D.reset s) [INTERNAL_SIG]) x) x) ∧
    hash_internal_node D x none s = hash_internal_node D x (some x) s ∧
    (hash_leaf shaOps v sl).1 = sha256 (LEAF_SIG :: v) ∧
    (hash_internal_node shaOps x (some y) sl).1 =
      sha256 (INTERNAL_SIG :: (x ++ y)) ∧
    (hash_internal_node shaOps x none sl).1 =
      sha256 (INTERNAL_SIG :: (x ++ x)) ∧
    (hash_leaf shaOps v sl).1.length = shaOps.output_bits / 8 ∧
    (hash_internal_node shaOps x (some y) sl).1.length =
      shaOps.output_bits / 8 := by
  refine ⟨rfl, rfl, rfl, rfl, ?_, ?_, ?_, ?_, ?_⟩
  · show sha256 (([] ++ [LEAF_SIG]) ++ v) = sha256 (LEAF_SIG :: v)
    simp
  · show sha256 ((([] ++ [INTERNAL_SIG]) ++ x) ++ y) =
      sha256 (INTERNAL_SIG :: (x ++ y))
    simp
  · show sha256 ((([] ++ [INTERNAL_SIG]) ++ x) ++ x) =
      sha256 (INTERNAL_SIG :: (x ++ x))
    simp
  · exact sha256_length _
  · exact sha256_length _

/-- C5: `verify(position, value)` fails — the fatal PositionOutOfRange
precondition violation — if and only if `position ≥ leafCount`; for
every `position < leafCount` it returns the byte-for-byte comparison of
`hashLeaf(value)`, recomputed with the tree's retained hasher, against
`nodes[internalCount + position]` (true exactly on equality), carrying
the mutated hasher state. -/
theorem c5_verify_position_contract {σ : Type} (D : DigestOps σ)
    (t : MerkleTree σ) (pos : Nat) (v : List Nat)
    (hwf : t.count_internal_nodes + t.count_leaves ≤ t.nodes.length) :
    (t.verify D pos v = none ↔ t.count_leaves ≤ pos) ∧
    (pos < t.count_leaves →
      t.verify D pos v = some
        (decide (t.nodes.getD (t.count_internal_nodes + pos)
            ([] : List Nat) = (hash_leaf D v t.hasher).1),
          { t with hasher := (hash_leaf D v t.hasher).2 })) := by
  constructor
  · constructor
    · intro hnone
      by_contra hc
      push_neg at hc
      rw [MerkleTree.verify, if_pos hc, if_pos (by omega)] at hnone
      exact Option.noConfusion hnone
    · intro hle
      rw [MerkleTree.verify, if_neg (by omega)]
  · intro hlt
    rw [MerkleTree.verify, if_pos hlt, if_pos (by omega)]

/-- Witness for C5 on a concrete tree over the unit digest. -/
theorem c5_verify_position_contract_witness :
    ((MerkleTree.mk () [[5], [6], [7]] 1 2).count_internal_nodes +
      (MerkleTree.mk () [[5], [6], [7]] 1 2).count_leaves ≤
      (MerkleTree.mk () [[5], [6], [7]] 1 2).nodes.length) ∧
    (((MerkleTree.mk () [[5], [6], [7]] 1 2).verify unitOps 0 [9] = none ↔
      (MerkleTree.mk () [[5], [6], [7]] 1 2).count_leaves ≤ 0) ∧
    (0 < (MerkleTree.mk () [[5], [6], [7]] 1 2).count_leaves →
      (MerkleTree.mk () [[5], [6], [7]] 1 2).verify unitOps 0 [9] = some
        (decide ((MerkleTree.mk () [[5], [6], [7]] 1 2).nodes.getD
            ((MerkleTree.mk () [[5], [6], [7]] 1 2).count_internal_nodes + 0)
            ([] : List Nat) =
          (hash_leaf unitOps [9]
            (MerkleTree.mk () [[5], [6], [7]] 1 2).hasher).1),
          { MerkleTree.mk () [[5], [6], [7]] 1 2 with
            hasher := (hash_leaf unitOps [9]
              (MerkleTree.mk () [[5], [6], [7]] 1 2).hasher).2 }))) :=
  ⟨by decide,
    c5_verify_position_contract unitOps (MerkleTree.mk () [[5], [6], [7]] 1 2)
      0 [9] (by decide)⟩

set_option maxRecDepth 1000000 in
/-- C9: building a tree from the two string values `"Hello World"` with
the default 256-bit (SHA-256) primitive yields the lower-case root hex
`c9978dc3e2d729207ca4c012de993423f19e7bf02161f7f95cdbf28d1b57b88a`. -/
theorem c9_hello_world_root_vector :
    ∃ t, build_with_hasher shaOps
        [strBytes "Hello World", strBytes "Hello World"] ([] : List Nat) =
        some t ∧
      t.root_hash_str =
        "c9978dc3e2d729207ca4c012de993423f19e7bf02161f7f95cdbf28d1b57b88a" := by
  have h : (build_with_hasher shaOps
      [strBytes "Hello World", strBytes "Hello World"]
      ([] : List Nat)).map MerkleTree.root_hash_str = some
      "c9978dc3e2d729207ca4c012de993423f19e7bf02161f7f95cdbf28d1b57b88a" := by
    decide
  obtain ⟨t, ht, hs⟩ := Option.map_eq_some'.mp h
  exact ⟨t, ht, hs⟩

set_option maxRecDepth 1000000 in
/-- C10: building from five identical `"Hello World"` values (odd leaf
count 5) does not fail, and the two children of the root — the hashes
at node-array indices 1 and 2 — are byte-for-byte equal. -/
theorem c10_five_leaves_root_children_equal :
    ∃ t, build_with_hasher shaOps
        (List.replicate 5 (strBytes "Hello World")) ([] : List Nat) =
        some t ∧
      t.nodes.getD 1 ([] : List Nat) = t.nodes.getD 2 ([] : List Nat) := by
  have h : (build_with_hasher shaOps
      (List.replicate 5 (strBytes "Hello World"))
      ([] : List Nat)).map (fun t => decide
        (t.nodes.getD 1 ([] : List Nat) = t.nodes.getD 2 ([] : List Nat))) =
      some true := by
    decide
  obtain ⟨t, ht, hb⟩ := Option.map_eq_some'.mp h
  exact ⟨t, ht, of_decide_eq_true hb⟩
